import Mathlib

/-!
Verification of the nodejs-vc Verifiable Credential library.

The development shallowly embeds the JavaScript source:
 - JSON documents become the inductive `JsonVal` (objects are ordered
   key/value lists, mirroring JS property insertion order);
 - `JSONLDCanon.canonicalize` follows `src/crypto/JSONLDCanon.js`; the
   underlying `canonicalize` npm dependency (a deterministic JSON
   serializer) is not part of the repository, so its serializer is
   modelled from the spec: object keys sorted lexicographically at every
   nesting level, no insignificant whitespace (`renderJson`, `sortJson`);
 - `VerifiableCredentialService.sign/verify/signPresentation/
   verifyPresentation` follow `src/crypto/VerifiableCredentialService.js`,
   with the platform ECDSA-P256 primitive abstracted as a `CryptoModel`
   (its raw sign/verify functions are Node `crypto` built-ins, outside the
   repository); the random ECDSA nonce and the `new Date().toISOString()`
   timestamp become explicit parameters;
 - the builders follow `src/builder/VCBuilder.js` (VCBuilder / VPBuilder),
   returning `Except` where the JS throws.
-/

/-- JSON-compatible values. Objects keep their key/value pairs in insertion
order, as JavaScript objects do; numbers are modelled as integers. -/
inductive JsonVal where
  | jnull
  | jbool (b : Bool)
  | jnum (n : Int)
  | jstr (s : String)
  | jarr (xs : List JsonVal)
  | jobj (kvs : List (String × JsonVal))

mutual

/-- Boolean structural equality on `JsonVal`. -/
def jsonBeq : JsonVal → JsonVal → Bool
  | .jnull, .jnull => true
  | .jbool a, .jbool b => a == b
  | .jnum a, .jnum b => a == b
  | .jstr a, .jstr b => a == b
  | .jarr xs, .jarr ys => jsonBeqList xs ys
  | .jobj l1, .jobj l2 => jsonBeqKVs l1 l2
  | _, _ => false
  termination_by structural a => a

/-- Pointwise `jsonBeq` on lists. -/
def jsonBeqList : List JsonVal → List JsonVal → Bool
  | [], [] => true
  | x :: xs, y :: ys => jsonBeq x y && jsonBeqList xs ys
  | _, _ => false
  termination_by structural a => a

/-- Pointwise `jsonBeq` on key/value lists. -/
def jsonBeqKVs : List (String × JsonVal) → List (String × JsonVal) → Bool
  | [], [] => true
  | (k, v) :: l1, (k2, v2) :: l2 => k == k2 && jsonBeq v v2 && jsonBeqKVs l1 l2
  | _, _ => false
  termination_by structural a => a

end

mutual

theorem jsonBeq_iff : ∀ {a b : JsonVal}, jsonBeq a b = true ↔ a = b
  | .jnull, .jnull => by simp [jsonBeq]
  | .jnull, .jbool _ | .jnull, .jnum _ | .jnull, .jstr _ | .jnull, .jarr _
  | .jnull, .jobj _ => by simp [jsonBeq]
  | .jbool _, .jnull | .jbool _, .jnum _ | .jbool _, .jstr _ | .jbool _, .jarr _
  | .jbool _, .jobj _ => by simp [jsonBeq]
  | .jnum _, .jnull | .jnum _, .jbool _ | .jnum _, .jstr _ | .jnum _, .jarr _
  | .jnum _, .jobj _ => by simp [jsonBeq]
  | .jstr _, .jnull | .jstr _, .jbool _ | .jstr _, .jnum _ | .jstr _, .jarr _
  | .jstr _, .jobj _ => by simp [jsonBeq]
  | .jarr _, .jnull | .jarr _, .jbool _ | .jarr _, .jnum _ | .jarr _, .jstr _
  | .jarr _, .jobj _ => by simp [jsonBeq]
  | .jobj _, .jnull | .jobj _, .jbool _ | .jobj _, .jnum _ | .jobj _, .jstr _
  | .jobj _, .jarr _ => by simp [jsonBeq]
  | .jbool a, .jbool b => by simp [jsonBeq]
  | .jnum a, .jnum b => by simp [jsonBeq]
  | .jstr a, .jstr b => by simp [jsonBeq]
  | .jarr xs, .jarr ys => by
      simp only [jsonBeq, jsonBeqList_iff, JsonVal.jarr.injEq]
  | .jobj l1, .jobj l2 => by
      simp only [jsonBeq, jsonBeqKVs_iff, JsonVal.jobj.injEq]

theorem jsonBeqList_iff : ∀ {xs ys : List JsonVal}, jsonBeqList xs ys = true ↔ xs = ys
  | [], [] => by simp [jsonBeqList]
  | [], _ :: _ => by simp [jsonBeqList]
  | _ :: _, [] => by simp [jsonBeqList]
  | x :: xs, y :: ys => by
      simp only [jsonBeqList, Bool.and_eq_true, jsonBeq_iff, jsonBeqList_iff,
        List.cons.injEq]

theorem jsonBeqKVs_iff : ∀ {l1 l2 : List (String × JsonVal)},
    jsonBeqKVs l1 l2 = true ↔ l1 = l2
  | [], [] => by simp [jsonBeqKVs]
  | [], _ :: _ => by simp [jsonBeqKVs]
  | _ :: _, [] => by simp [jsonBeqKVs]
  | (k, v) :: l1, (k2, v2) :: l2 => by
      simp only [jsonBeqKVs, Bool.and_eq_true, beq_iff_eq, jsonBeq_iff,
        jsonBeqKVs_iff, List.cons.injEq, Prod.mk.injEq, and_assoc]

end

instance : DecidableEq JsonVal := fun a b =>
  decidable_of_iff (jsonBeq a b = true) jsonBeq_iff

/-- JavaScript truthiness of a JSON value: `null`, `false`, `0` and `""` are
falsy; every array and object (including `{}`) is truthy. -/
def jsTruthy : JsonVal → Bool
  | .jnull => false
  | .jbool b => b
  | .jnum n => n != 0
  | .jstr s => s != ""
  | .jarr _ => true
  | .jobj _ => true

/-- JavaScript property read `v.k`: `none` models `undefined` (missing key,
or a non-object receiver). -/
def memberAccess (v : JsonVal) (k : String) : Option JsonVal :=
  match v with
  | .jobj kvs => List.lookup k kvs
  | _ => none

/-- Truthiness of a possibly-undefined value (`undefined` is falsy). -/
def jsTruthyOpt : Option JsonVal → Bool
  | none => false
  | some v => jsTruthy v

/-- JavaScript `delete v.k` (applied to a fresh deep copy in the source):
removes the property from an object, leaves other values unchanged. -/
def deleteField (v : JsonVal) (k : String) : JsonVal :=
  match v with
  | .jobj kvs => .jobj (kvs.filter (fun p => p.1 != k))
  | w => w

/-- Replace the value at the first occurrence of key `k`, or append the
binding, mirroring JavaScript property assignment on an object. -/
def setKV (k : String) (v : JsonVal) : List (String × JsonVal) → List (String × JsonVal)
  | [] => [(k, v)]
  | (k2, v2) :: kvs => if k2 == k then (k, v) :: kvs else (k2, v2) :: setKV k v kvs

/-- JavaScript property assignment `obj.k = v` on an object value. -/
def setField (o : JsonVal) (k : String) (v : JsonVal) : JsonVal :=
  match o with
  | .jobj kvs => .jobj (setKV k v kvs)
  | w => w

/-- Whether a JSON value is an object. -/
def JsonVal.isObj : JsonVal → Bool
  | .jobj _ => true
  | _ => false

/-- Hexadecimal digit character for `n < 16`. -/
def hexDigit (n : Nat) : Char :=
  if n < 10 then Char.ofNat (48 + n) else Char.ofNat (87 + n)

/-- Four-digit hexadecimal rendering, for `\uXXXX` escapes. -/
def hex4 (n : Nat) : String :=
  String.mk [hexDigit (n / 4096 % 16), hexDigit (n / 256 % 16),
    hexDigit (n / 16 % 16), hexDigit (n % 16)]

/-- JSON string-character escaping as performed by `JSON.stringify`:
quote, backslash and the common control characters get two-character
escapes, remaining control characters get `\uXXXX`. -/
def escapeJsonChar (c : Char) : String :=
  if c = '"' then "\\\""
  else if c = '\\' then "\\\\"
  else if c = '\n' then "\\n"
  else if c = '\t' then "\\t"
  else if c = '\r' then "\\r"
  else if c.toNat = 8 then "\\b"
  else if c.toNat = 12 then "\\f"
  else if c.toNat < 32 then "\\u" ++ hex4 c.toNat
  else String.singleton c

/-- Escape every character of a JSON string body. -/
def escapeJsonString (s : String) : String :=
  s.data.foldl (fun acc c => acc ++ escapeJsonChar c) ""

/-- Quoted, escaped JSON string literal. -/
def quoteJson (s : String) : String :=
  "\"" ++ escapeJsonString s ++ "\""

mutual

/-- Serialize a JSON value with no insignificant whitespace, keeping object
keys in their list order.  Composed with `sortJson` below this models the
output format of the `canonicalize` npm dependency (deterministic JSON
serialization, spec section 4.1). -/
def renderJson : JsonVal → String
  | .jnull => "null"
  | .jbool true => "true"
  | .jbool false => "false"
  | .jnum n => toString n
  | .jstr s => quoteJson s
  | .jarr xs => "[" ++ renderJsonArr xs ++ "]"
  | .jobj kvs => "\x7b" ++ renderJsonObj kvs ++ "\x7d"
  termination_by structural v => v

/-- Comma-separated rendering of array elements. -/
def renderJsonArr : List JsonVal → String
  | [] => ""
  | [x] => renderJson x
  | x :: y :: xs => renderJson x ++ "," ++ renderJsonArr (y :: xs)
  termination_by structural xs => xs

/-- Comma-separated rendering of object members. -/
def renderJsonObj : List (String × JsonVal) → String
  | [] => ""
  | [(k, v)] => quoteJson k ++ ":" ++ renderJson v
  | (k, v) :: q :: kvs => quoteJson k ++ ":" ++ renderJson v ++ "," ++ renderJsonObj (q :: kvs)
  termination_by structural kvs => kvs

end

/-- Ordering of object members by key (lexicographic on code points). -/
def kvLe (p q : String × JsonVal) : Prop := p.1 ≤ q.1

instance : DecidableRel kvLe := fun p q => inferInstanceAs (Decidable (p.1 ≤ q.1))

instance : IsTotal (String × JsonVal) kvLe := ⟨fun p q => le_total p.1 q.1⟩

instance : IsTrans (String × JsonVal) kvLe := ⟨fun _ _ _ h1 h2 => le_trans h1 h2⟩

/-- Strict version of `kvLe`, used to identify sorted member lists with
duplicate-free keys. -/
def kvLt (p q : String × JsonVal) : Prop := p.1 < q.1

instance : IsAntisymm (String × JsonVal) kvLt :=
  ⟨fun _ _ h1 h2 => absurd (lt_trans h1 h2) (lt_irrefl _)⟩

mutual

/-- Recursively sort every object's members by key.  Modelled from the
spec: the `canonicalize` npm dependency sorts object keys
deterministically at every nesting level (spec section 4.1); the package
itself is not part of the repository. -/
def sortJson : JsonVal → JsonVal
  | .jnull => .jnull
  | .jbool b => .jbool b
  | .jnum n => .jnum n
  | .jstr s => .jstr s
  | .jarr xs => .jarr (sortJsonList xs)
  | .jobj kvs => .jobj (List.insertionSort kvLe (sortJsonKVs kvs))
  termination_by structural v => v

/-- `sortJson` mapped over array elements. -/
def sortJsonList : List JsonVal → List JsonVal
  | [] => []
  | x :: xs => sortJson x :: sortJsonList xs
  termination_by structural xs => xs

/-- `sortJson` mapped over the values of object members. -/
def sortJsonKVs : List (String × JsonVal) → List (String × JsonVal)
  | [] => []
  | (k, v) :: kvs => (k, sortJson v) :: sortJsonKVs kvs
  termination_by structural kvs => kvs

end

/-- Deterministic JSON serialization: sorted keys at every nesting level,
no insignificant whitespace.  Modelled from the spec (section 4.1): this is
the contract of the external `canonicalize` npm dependency that
`JSONLDCanon.canonicalize` delegates to. -/
def canonicalizeJson (v : JsonVal) : String :=
  renderJson (sortJson v)

/-- `JSONLDCanon.canonicalize` from `src/crypto/JSONLDCanon.js`:
optionally strips a truthy `proof` field (after a `JSON` deep copy, which
preserves the value), then delegates to the deterministic serializer.
The `vc.toJSON ? vc.toJSON() : vc` dispatch is the identity here because
documents are already plain JSON values. -/
def JSONLDCanon.canonicalize (vc : JsonVal) (excludeProof : Bool := false) : String :=
  let obj := if excludeProof && jsTruthyOpt (memberAccess vc "proof")
    then deleteField vc "proof" else vc
  canonicalizeJson obj

/-- Linked Data `Proof` record from `src/index.js` (class Proof): five
nullable string-valued fields, `null` modelled as `none`. -/
structure Proof where
  type : Option String
  created : Option String
  verificationMethod : Option String
  proofPurpose : Option String
  proofValue : Option String

/-- One sparse field of `Proof.toJSON`: emitted only when truthy
(`if (this.f) result.f = this.f`), so `null` and `""` are omitted. -/
def optField (name : String) : Option String → List (String × JsonVal)
  | none => []
  | some s => if s = "" then [] else [(name, .jstr s)]

/-- `Proof.toJSON` from `src/index.js`: sparse object, fields in declaration
order, falsy fields omitted. -/
def Proof.toJSON (p : Proof) : JsonVal :=
  .jobj (optField "type" p.type ++ optField "created" p.created ++
    optField "verificationMethod" p.verificationMethod ++
    optField "proofPurpose" p.proofPurpose ++ optField "proofValue" p.proofValue)

/-- `ProofGenerator.createProofWithMetadata` (src/crypto/ProofGenerator.js):
builds a proof with the given type, purpose and verification method; the
`new Date().toISOString()` timestamp is passed in as `created`. -/
def ProofGenerator.createProofWithMetadata (type purpose verificationMethod created : String) :
    Proof :=
  { type := some type, created := some created,
    verificationMethod := some verificationMethod,
    proofPurpose := some purpose, proofValue := none }

/-- Abstract model of the platform ECDSA-P256/SHA-256 primitive used by
`VerifiableCredentialService` (Node `crypto.createSign`/`createVerify`,
outside the repository).  Keys are opaque handles (the service's
`_getKeyObject` normalization is the identity on already-resolved
handles); `sign` takes the random ECDSA nonce explicitly; `verify` is
total, reflecting Node's lenient Base64 decoding of the signature (a
malformed signature string yields `false`, not an exception). -/
structure CryptoModel where
  sign : Nat → Nat → String → String
  verify : Nat → String → String → Bool

/-- `VerifiableCredentialService.sign` (src/crypto/VerifiableCredentialService.js):
deep-copies the document (`JSON.parse(JSON.stringify(vc))`, the identity on
JSON values), canonicalizes the original with `excludeProof = true`, signs
the canonical string, and attaches the completed proof to the copy.  The
verification method is the fixed `did:example:123#key-1`. -/
def VerifiableCredentialService.sign (C : CryptoModel) (vc : JsonVal)
    (privateKey nonce : Nat) (created : String) : JsonVal :=
  let signedVc := vc
  let proof := ProofGenerator.createProofWithMetadata
    "EcdsaSecp256r1Signature2019" "assertionMethod" "did:example:123#key-1" created
  let canonicalVc := JSONLDCanon.canonicalize vc true
  let signature := C.sign privateKey nonce canonicalVc
  let proof := { proof with proofValue := some signature }
  setField signedVc "proof" proof.toJSON

/-- `VerifiableCredentialService.verify`: returns `false` when `vc.proof`
or `vc.proof.proofValue` is falsy; otherwise canonicalizes the
proof-stripped copy and checks the signature.  `Except` models the only
way the remaining body can throw: a truthy non-string `proofValue` handed
to Node's `verify.verify(key, sig, 'base64')`. -/
def VerifiableCredentialService.verify (C : CryptoModel) (vc : JsonVal) (publicKey : Nat) :
    Except String Bool :=
  match memberAccess vc "proof" with
  | none => .ok false
  | some proofVal =>
    if jsTruthy proofVal = false then .ok false
    else match memberAccess proofVal "proofValue" with
      | none => .ok false
      | some pv =>
        if jsTruthy pv = false then .ok false
        else match pv with
          | .jstr signature =>
            let canonicalVc := JSONLDCanon.canonicalize (deleteField vc "proof")
            .ok (C.verify publicKey canonicalVc signature)
          | _ => .error "TypeError: signature is not a string"

/-- JavaScript string coercion, as in the template literal
`${vp.holder}#key-1`. -/
def jsToString : JsonVal → String
  | .jnull => "null"
  | .jbool true => "true"
  | .jbool false => "false"
  | .jnum n => toString n
  | .jstr s => s
  | .jarr _ => ""
  | .jobj _ => "[object Object]"

/-- `VerifiableCredentialService.signPresentation`: as `sign`, but the proof
purpose is `authentication` and the verification method is derived from the
presentation's truthy `holder` (`${vp.holder}#key-1`), with the placeholder
`did:example:holder#key-1` otherwise. -/
def VerifiableCredentialService.signPresentation (C : CryptoModel) (vp : JsonVal)
    (privateKey nonce : Nat) (created : String) : JsonVal :=
  let signedVp := vp
  let verificationMethod :=
    if jsTruthyOpt (memberAccess vp "holder")
    then jsToString ((memberAccess vp "holder").getD .jnull) ++ "#key-1"
    else "did:example:holder#key-1"
  let proof := ProofGenerator.createProofWithMetadata
    "EcdsaSecp256r1Signature2019" "authentication" verificationMethod created
  let canonicalVp := JSONLDCanon.canonicalize vp true
  let signature := C.sign privateKey nonce canonicalVp
  let proof := { proof with proofValue := some signature }
  setField signedVp "proof" proof.toJSON

/-- `VerifiableCredentialService.verifyPresentation`: same body as `verify`. -/
def VerifiableCredentialService.verifyPresentation (C : CryptoModel) (vp : JsonVal)
    (publicKey : Nat) : Except String Bool :=
  match memberAccess vp "proof" with
  | none => .ok false
  | some proofVal =>
    if jsTruthy proofVal = false then .ok false
    else match memberAccess proofVal "proofValue" with
      | none => .ok false
      | some pv =>
        if jsTruthy pv = false then .ok false
        else match pv with
          | .jstr signature =>
            let canonicalVp := JSONLDCanon.canonicalize (deleteField vp "proof")
            .ok (C.verify publicKey canonicalVp signature)
          | _ => .error "TypeError: signature is not a string"

/-- JavaScript truthiness of a nullable string field (`null` and `""` are
falsy). -/
def jsTruthyStr : Option String → Bool
  | none => false
  | some s => s != ""

/-- `VerifiableCredential` entity (src/core/VerifiableCredential.js, v2.0
class): `validFrom`/`validUntil` fields with the deprecated
`issuanceDate`/`expirationDate` accessors aliasing them.  The builder holds
one of these records as its in-progress state. -/
structure VerifiableCredential where
  context : List String
  type : List String
  id : Option String := none
  issuer : Option String := none
  validFrom : Option String := none
  validUntil : Option String := none
  credentialSubject : Option JsonVal := none
  proof : Option JsonVal := none

/-- `VCBuilder.build` (src/builder/VCBuilder.js): validates required fields
in source order and throws (here: returns `Except.error`) with the message
naming the first missing field.  `getIssuanceDate()` is the legacy alias of
`validFrom`. -/
def VCBuilder.build (vc : VerifiableCredential) : Except String VerifiableCredential :=
  if vc.context.isEmpty then
    .error "Verifiable Credential must have at least one context"
  else if vc.type.isEmpty then
    .error "Verifiable Credential must have at least one type"
  else if jsTruthyStr vc.issuer = false then
    .error "Verifiable Credential must have an issuer"
  else if jsTruthyStr vc.validFrom = false then
    .error "Verifiable Credential must have an issuance date"
  else if jsTruthyOpt vc.credentialSubject = false then
    .error "Verifiable Credential must have a credential subject"
  else .ok vc

/-- `VerifiablePresentation` entity (src/core/VerifiablePresentation.js). -/
structure VerifiablePresentation where
  context : List String
  type : List String
  id : Option String := none
  holder : Option String := none
  verifiableCredential : List JsonVal := []
  proof : Option JsonVal := none

/-- `VPBuilder.build` (src/builder/VCBuilder.js): validates `holder` and a
non-empty credential list, then appends the `VerifiablePresentation` marker
type to the builder state when absent instead of failing. -/
def VPBuilder.build (vp : VerifiablePresentation) : Except String VerifiablePresentation :=
  if jsTruthyStr vp.holder = false then
    .error "Holder is required"
  else if vp.verifiableCredential.isEmpty then
    .error "At least one verifiable credential is required"
  else if vp.type.contains "VerifiablePresentation" then .ok vp
  else .ok { vp with type := vp.type ++ ["VerifiablePresentation"] }

/-- Modelled from the spec (section 4.6): the first missing required
credential field in the deterministic order context, type, issuer,
validFrom (legacy alias issuanceDate), credentialSubject. -/
def specVCFirstMissing (vc : VerifiableCredential) : Option String :=
  if vc.context.isEmpty then some "context"
  else if vc.type.isEmpty then some "type"
  else if jsTruthyStr vc.issuer = false then some "issuer"
  else if jsTruthyStr vc.validFrom = false then some "validFrom"
  else if jsTruthyOpt vc.credentialSubject = false then some "credentialSubject"
  else none

/-- The ValidationError message naming each required credential field. -/
def vcValidationMessage : String → String
  | "context" => "Verifiable Credential must have at least one context"
  | "type" => "Verifiable Credential must have at least one type"
  | "issuer" => "Verifiable Credential must have an issuer"
  | "validFrom" => "Verifiable Credential must have an issuance date"
  | "credentialSubject" => "Verifiable Credential must have a credential subject"
  | _ => ""

/-- Modelled from the spec (section 4.6): the presentation finalize failure,
`holder` checked before the non-empty credential list. -/
def specVPError (vp : VerifiablePresentation) : Option String :=
  if jsTruthyStr vp.holder = false then some "Holder is required"
  else if vp.verifiableCredential.isEmpty then
    some "At least one verifiable credential is required"
  else none

theorem lookup_setKV_self (k : String) (v : JsonVal) (kvs : List (String × JsonVal)) :
    List.lookup k (setKV k v kvs) = some v := by
  induction kvs with
  | nil => simp [setKV, List.lookup]
  | cons p kvs ih =>
    obtain ⟨k2, v2⟩ := p
    by_cases h : k2 = k
    · subst h; simp [setKV, List.lookup]
    · simp only [setKV, beq_iff_eq, if_neg h]
      have h2 : (k == k2) = false := by simp [Ne.symm h]
      simp [List.lookup, h2, ih]

theorem filter_setKV (k : String) (v : JsonVal) (kvs : List (String × JsonVal)) :
    (setKV k v kvs).filter (fun p => p.1 != k)
      = kvs.filter (fun p => p.1 != k) := by
  induction kvs with
  | nil => simp [setKV]
  | cons p kvs ih =>
    obtain ⟨k2, v2⟩ := p
    by_cases h : k2 = k
    · subst h; simp [setKV]
    · simp only [setKV, beq_iff_eq, if_neg h]
      simp [List.filter_cons, h, ih]

theorem filter_of_lookup_none (k : String) (kvs : List (String × JsonVal))
    (h : List.lookup k kvs = none) : kvs.filter (fun p => p.1 != k) = kvs := by
  induction kvs with
  | nil => simp
  | cons p kvs ih =>
    obtain ⟨k2, v2⟩ := p
    by_cases hk : k = k2
    · subst hk; simp [List.lookup] at h
    · have h2 : (k == k2) = false := by simp [hk]
      simp only [List.lookup, h2] at h
      simp [List.filter_cons, Ne.symm hk, ih h]

theorem lookup_append_of_keys_ne (k : String) (l1 l2 : List (String × JsonVal))
    (h : ∀ p ∈ l1, p.1 ≠ k) : List.lookup k (l1 ++ l2) = List.lookup k l2 := by
  induction l1 with
  | nil => simp
  | cons p l1 ih =>
    obtain ⟨k2, v2⟩ := p
    have hk : k ≠ k2 := fun he => h (k2, v2) (by simp) (by simp [he.symm])
    have h2 : (k == k2) = false := by simp [hk]
    simp only [List.cons_append, List.lookup, h2]
    exact ih (fun p hp => h p (by simp [hp]))

theorem optField_keys (name : String) (o : Option String) :
    ∀ p ∈ optField name o, p.1 = name := by
  cases o with
  | none => simp [optField]
  | some s =>
    by_cases h : s = ""
    · simp [optField, h]
    · simp [optField, h]

theorem memberAccess_toJSON_proofValue (p : Proof) (s : String)
    (hpv : p.proofValue = some s) (hs : s ≠ "") :
    memberAccess p.toJSON "proofValue" = some (.jstr s) := by
  simp only [Proof.toJSON, memberAccess, List.append_assoc]
  rw [lookup_append_of_keys_ne _ _ _
      (fun q hq => by rw [optField_keys _ _ q hq]; decide),
    lookup_append_of_keys_ne _ _ _
      (fun q hq => by rw [optField_keys _ _ q hq]; decide),
    lookup_append_of_keys_ne _ _ _
      (fun q hq => by rw [optField_keys _ _ q hq]; decide),
    lookup_append_of_keys_ne _ _ _
      (fun q hq => by rw [optField_keys _ _ q hq]; decide)]
  simp [optField, hpv, hs, List.lookup]

theorem memberAccess_toJSON_verificationMethod (p : Proof) (s : String)
    (hvm : p.verificationMethod = some s) (hs : s ≠ "") :
    memberAccess p.toJSON "verificationMethod" = some (.jstr s) := by
  simp only [Proof.toJSON, memberAccess, List.append_assoc]
  rw [lookup_append_of_keys_ne _ _ _
      (fun q hq => by rw [optField_keys _ _ q hq]; decide),
    lookup_append_of_keys_ne _ _ _
      (fun q hq => by rw [optField_keys _ _ q hq]; decide)]
  simp [optField, hvm, hs, List.lookup]

theorem jsTruthy_toJSON (p : Proof) : jsTruthy p.toJSON = true := rfl

/-- A document whose `proof` field is either absent or truthy: the shape of
every buildable document (built credentials and presentations serialize
sparsely, omitting a null proof), and the precondition under which the
canonical bytes at verification time match those at signing time. -/
def proofAbsentOrTruthy (vc : JsonVal) : Prop :=
  memberAccess vc "proof" = none ∨ jsTruthyOpt (memberAccess vc "proof") = true

theorem canonicalize_true_eq (vc : JsonVal) (hp : proofAbsentOrTruthy vc) :
    JSONLDCanon.canonicalize vc true = canonicalizeJson (deleteField vc "proof") := by
  rcases hp with h | h
  · have hd : deleteField vc "proof" = vc := by
      cases vc with
      | jobj kvs => exact congrArg JsonVal.jobj (filter_of_lookup_none _ _ h)
      | jnull => rfl
      | jbool b => rfl
      | jnum n => rfl
      | jstr s => rfl
      | jarr xs => rfl
    rw [hd]
    simp [JSONLDCanon.canonicalize, h, jsTruthyOpt]
  · simp [JSONLDCanon.canonicalize, h]

theorem verify_setField_toJSON (C : CryptoModel) (pub : Nat) (vc : JsonVal) (p : Proof)
    (s : String) (hobj : vc.isObj = true) (hpv : p.proofValue = some s) (hs : s ≠ "") :
    VerifiableCredentialService.verify C (setField vc "proof" p.toJSON) pub
      = .ok (C.verify pub (canonicalizeJson (deleteField vc "proof")) s) := by
  cases vc with
  | jobj kvs =>
    have h1 : memberAccess (setField (.jobj kvs) "proof" p.toJSON) "proof" = some p.toJSON := by
      simp [setField, memberAccess, lookup_setKV_self]
    have h2 : deleteField (setField (.jobj kvs) "proof" p.toJSON) "proof"
        = deleteField (.jobj kvs) "proof" := by
      simp [setField, deleteField, filter_setKV]
    unfold VerifiableCredentialService.verify
    rw [h1]
    simp only [jsTruthy_toJSON, memberAccess_toJSON_proofValue p s hpv hs]
    have h3 : jsTruthy (.jstr s) = true := by simp [jsTruthy, hs]
    simp [h3, h2, JSONLDCanon.canonicalize, memberAccess]
  | jnull => simp [JsonVal.isObj] at hobj
  | jbool b => simp [JsonVal.isObj] at hobj
  | jnum n => simp [JsonVal.isObj] at hobj
  | jstr s2 => simp [JsonVal.isObj] at hobj
  | jarr xs => simp [JsonVal.isObj] at hobj

theorem verifyPresentation_eq_verify (C : CryptoModel) (vp : JsonVal) (pub : Nat) :
    VerifiableCredentialService.verifyPresentation C vp pub
      = VerifiableCredentialService.verify C vp pub := rfl

/-- C1: for every valid document (object-shaped, `proof` absent or truthy,
as every built document is) and every key pair for which the platform
ECDSA-P256 primitive round-trips (`C.verify pub m (C.sign priv n m) = true`,
the defining property of a matching P-256 key pair, with the nonempty
Base64 signature string ECDSA always produces), verifying the result of
signing returns true, on both the credential path (`sign`/`verify`) and the
presentation path (`signPresentation`/`verifyPresentation`). -/
theorem roundtrip_sign_verify (C : CryptoModel) (vc vp : JsonVal)
    (privC pubC privP pubP nonceC nonceP : Nat) (createdC createdP : String)
    (hobjC : vc.isObj = true) (hpC : proofAbsentOrTruthy vc)
    (hneC : C.sign privC nonceC (JSONLDCanon.canonicalize vc true) ≠ "")
    (hokC : C.verify pubC (JSONLDCanon.canonicalize vc true)
      (C.sign privC nonceC (JSONLDCanon.canonicalize vc true)) = true)
    (hobjP : vp.isObj = true) (hpP : proofAbsentOrTruthy vp)
    (hneP : C.sign privP nonceP (JSONLDCanon.canonicalize vp true) ≠ "")
    (hokP : C.verify pubP (JSONLDCanon.canonicalize vp true)
      (C.sign privP nonceP (JSONLDCanon.canonicalize vp true)) = true) :
    VerifiableCredentialService.verify C
      (VerifiableCredentialService.sign C vc privC nonceC createdC) pubC = .ok true ∧
    VerifiableCredentialService.verifyPresentation C
      (VerifiableCredentialService.signPresentation C vp privP nonceP createdP) pubP
        = .ok true := by
  constructor
  · simp only [VerifiableCredentialService.sign]
    rw [verify_setField_toJSON C pubC vc _ _ hobjC rfl hneC,
      ← canonicalize_true_eq vc hpC, hokC]
  · rw [verifyPresentation_eq_verify]
    simp only [VerifiableCredentialService.signPresentation]
    rw [verify_setField_toJSON C pubP vp _ _ hobjP rfl hneP,
      ← canonicalize_true_eq vp hpP, hokP]

/-- Degenerate crypto model used to instantiate hypotheses at concrete
inputs: a fixed nonempty signature string that always verifies. -/
def toyCryptoAccept : CryptoModel :=
  { sign := fun _ _ _ => "SIG", verify := fun _ _ _ => true }

theorem roundtrip_sign_verify_witness :
    VerifiableCredentialService.verify toyCryptoAccept
      (VerifiableCredentialService.sign toyCryptoAccept
        (.jobj [("issuer", .jstr "did:example:a")]) 1 2 "2024-01-01T00:00:00Z") 3 = .ok true ∧
    VerifiableCredentialService.verifyPresentation toyCryptoAccept
      (VerifiableCredentialService.signPresentation toyCryptoAccept
        (.jobj [("holder", .jstr "did:example:b")]) 4 5 "2024-01-01T00:00:00Z") 6
        = .ok true :=
  roundtrip_sign_verify toyCryptoAccept
    (.jobj [("issuer", .jstr "did:example:a")]) (.jobj [("holder", .jstr "did:example:b")])
    1 3 4 6 2 5 "2024-01-01T00:00:00Z" "2024-01-01T00:00:00Z"
    (by decide) (Or.inl (by decide)) (by decide) rfl
    (by decide) (Or.inl (by decide)) (by decide) rfl

theorem canonicalize_false_eq (v : JsonVal) :
    JSONLDCanon.canonicalize v = canonicalizeJson v := rfl

theorem verify_of_member_proof (C : CryptoModel) (pub : Nat) (vc : JsonVal) (p : Proof)
    (s : String) (hm : memberAccess vc "proof" = some p.toJSON)
    (hpv : p.proofValue = some s) (hs : s ≠ "") :
    VerifiableCredentialService.verify C vc pub
      = .ok (C.verify pub (canonicalizeJson (deleteField vc "proof")) s) := by
  unfold VerifiableCredentialService.verify
  rw [hm]
  simp only [jsTruthy_toJSON, memberAccess_toJSON_proofValue p s hpv hs]
  have h3 : jsTruthy (.jstr s) = true := by simp [jsTruthy, hs]
  simp [h3, JSONLDCanon.canonicalize, memberAccess]

/-- The proof record attached by `VerifiableCredentialService.sign`. -/
def signedProof (C : CryptoModel) (vc : JsonVal) (priv nonce : Nat) (created : String) :
    Proof :=
  { type := some "EcdsaSecp256r1Signature2019", created := some created,
    verificationMethod := some "did:example:123#key-1",
    proofPurpose := some "assertionMethod",
    proofValue := some (C.sign priv nonce (JSONLDCanon.canonicalize vc true)) }

theorem sign_proof_member (C : CryptoModel) (vc : JsonVal) (priv nonce : Nat)
    (created : String) (hobj : vc.isObj = true) :
    memberAccess (VerifiableCredentialService.sign C vc priv nonce created) "proof"
      = some (signedProof C vc priv nonce created).toJSON := by
  cases vc with
  | jobj kvs =>
    simp only [VerifiableCredentialService.sign, ProofGenerator.createProofWithMetadata,
      signedProof, setField, memberAccess, lookup_setKV_self]
  | jnull => simp [JsonVal.isObj] at hobj
  | jbool b => simp [JsonVal.isObj] at hobj
  | jnum n => simp [JsonVal.isObj] at hobj
  | jstr s2 => simp [JsonVal.isObj] at hobj
  | jarr xs => simp [JsonVal.isObj] at hobj

/-- C2: verification fails on a wrong public key, and fails on any mutation
of a signed document that changes the canonical bytes.  The two facts about
the ECDSA primitive (a signature does not verify under a non-matching key;
a signature over different bytes does not verify) are hypotheses on the
abstract crypto model; the theorem shows the service feeds exactly the
canonical bytes of the (possibly mutated) proof-stripped document and the
stored `proofValue` to that primitive and returns its boolean verbatim. -/
theorem verify_rejects_wrong_key_and_tamper (C : CryptoModel) :
    (∀ (vc : JsonVal) (priv pub2 nonce : Nat) (created : String),
      vc.isObj = true → proofAbsentOrTruthy vc →
      C.sign priv nonce (JSONLDCanon.canonicalize vc true) ≠ "" →
      C.verify pub2 (JSONLDCanon.canonicalize vc true)
        (C.sign priv nonce (JSONLDCanon.canonicalize vc true)) = false →
      VerifiableCredentialService.verify C
        (VerifiableCredentialService.sign C vc priv nonce created) pub2 = .ok false) ∧
    (∀ (vc vc2 : JsonVal) (priv pub nonce : Nat) (created : String),
      vc.isObj = true →
      memberAccess vc2 "proof"
        = memberAccess (VerifiableCredentialService.sign C vc priv nonce created) "proof" →
      C.sign priv nonce (JSONLDCanon.canonicalize vc true) ≠ "" →
      JSONLDCanon.canonicalize (deleteField vc2 "proof") ≠ JSONLDCanon.canonicalize vc true →
      C.verify pub (JSONLDCanon.canonicalize (deleteField vc2 "proof"))
        (C.sign priv nonce (JSONLDCanon.canonicalize vc true)) = false →
      VerifiableCredentialService.verify C vc2 pub = .ok false) := by
  constructor
  · intro vc priv pub2 nonce created hobj hp hne hbad
    simp only [VerifiableCredentialService.sign]
    rw [verify_setField_toJSON C pub2 vc _ _ hobj rfl hne,
      ← canonicalize_true_eq vc hp, hbad]
  · intro vc vc2 priv pub nonce created hobj hm hne _hdiff hbad
    rw [verify_of_member_proof C pub vc2 (signedProof C vc priv nonce created)
        (C.sign priv nonce (JSONLDCanon.canonicalize vc true))
        (hm.trans (sign_proof_member C vc priv nonce created hobj)) rfl hne,
      ← canonicalize_false_eq, hbad]

/-- Degenerate crypto model whose verification always fails, used to
instantiate rejection hypotheses at concrete inputs. -/
def toyCryptoReject : CryptoModel :=
  { sign := fun _ _ _ => "SIG", verify := fun _ _ _ => false }

theorem verify_rejects_wrong_key_and_tamper_witness :
    VerifiableCredentialService.verify toyCryptoReject
      (VerifiableCredentialService.sign toyCryptoReject
        (.jobj [("a", .jstr "x")]) 1 2 "2024-01-01T00:00:00Z") 9 = .ok false ∧
    VerifiableCredentialService.verify toyCryptoReject
      (setField (VerifiableCredentialService.sign toyCryptoReject
        (.jobj [("a", .jstr "x")]) 1 2 "2024-01-01T00:00:00Z") "a" (.jstr "y")) 9
      = .ok false :=
  ⟨(verify_rejects_wrong_key_and_tamper toyCryptoReject).1
      (.jobj [("a", .jstr "x")]) 1 9 2 "2024-01-01T00:00:00Z"
      (by decide) (Or.inl (by decide)) (by decide) (by decide),
    (verify_rejects_wrong_key_and_tamper toyCryptoReject).2
      (.jobj [("a", .jstr "x")])
      (setField (VerifiableCredentialService.sign toyCryptoReject
        (.jobj [("a", .jstr "x")]) 1 2 "2024-01-01T00:00:00Z") "a" (.jstr "y"))
      1 9 2 "2024-01-01T00:00:00Z"
      (by decide) (by decide) (by decide) (by decide) (by decide)⟩

/-- The guard condition of `verify`: `!vc.proof || !vc.proof.proofValue`.
Covers an absent `proof`, any falsy `proof` (e.g. `null`), an empty or
metadata-only `proof` object, and a null/absent/empty `proofValue`. -/
def missingProof (vc : JsonVal) : Bool :=
  match memberAccess vc "proof" with
  | none => true
  | some p => !(jsTruthy p) || !(jsTruthyOpt (memberAccess p "proofValue"))

/-- C4: whenever the document's proof is absent, the proof is falsy or an
empty object, or `proofValue` is null/absent/empty, `verify` returns
`.ok false` for EVERY crypto model — the quantification over `C` expresses
that no cryptographic work is performed — and it does not throw.  When the
guard passes with a string `proofValue`, `verify` returns `.ok` of the raw
primitive's boolean for any string whatsoever (including malformed Base64:
Node decodes the signature argument leniently inside `verify.verify`), so a
decode failure surfaces as `false`, never as a propagated exception. -/
theorem verify_missing_proof_returns_false :
    (∀ (C : CryptoModel) (vc : JsonVal) (pub : Nat), missingProof vc = true →
      VerifiableCredentialService.verify C vc pub = .ok false) ∧
    (∀ (C : CryptoModel) (vc p : JsonVal) (s : String) (pub : Nat),
      memberAccess vc "proof" = some p → jsTruthy p = true →
      memberAccess p "proofValue" = some (.jstr s) → s ≠ "" →
      VerifiableCredentialService.verify C vc pub
        = .ok (C.verify pub (JSONLDCanon.canonicalize (deleteField vc "proof")) s)) := by
  constructor
  · intro C vc pub h
    unfold VerifiableCredentialService.verify
    unfold missingProof at h
    cases hm : memberAccess vc "proof" with
    | none => rfl
    | some p =>
      rw [hm] at h
      simp only [] at h
      rcases Bool.or_eq_true _ _ |>.mp h with h1 | h1
      · simp [Bool.not_eq_true' .. |>.mp h1]
      · by_cases ht : jsTruthy p = false
        · simp [ht]
        · simp only [ht, if_false]
          cases hm2 : memberAccess p "proofValue" with
          | none => simp
          | some pv =>
            rw [hm2] at h1
            simp only [jsTruthyOpt] at h1
            simp [Bool.not_eq_true' .. |>.mp h1]
  · intro C vc p s pub hm ht hpv hs
    unfold VerifiableCredentialService.verify
    rw [hm]
    simp only [ht, Bool.true_eq_false, if_false, hpv]
    have h2 : (jsTruthy (JsonVal.jstr s) = false) = False := by simp [jsTruthy, hs]
    simp only [h2, if_false]

theorem verify_missing_proof_returns_false_witness :
    VerifiableCredentialService.verify toyCryptoAccept
      (.jobj [("proof", .jobj [])]) 0 = .ok false ∧
    VerifiableCredentialService.verify toyCryptoAccept
      (.jobj [("proof", .jobj [("proofValue", .jstr "!!not-base64!!")])]) 0
      = .ok (toyCryptoAccept.verify 0
          (JSONLDCanon.canonicalize
            (deleteField (.jobj [("proof", .jobj [("proofValue", .jstr "!!not-base64!!")])]) "proof"))
          "!!not-base64!!") :=
  ⟨verify_missing_proof_returns_false.1 toyCryptoAccept (.jobj [("proof", .jobj [])]) 0
      (by decide),
    verify_missing_proof_returns_false.2 toyCryptoAccept
      (.jobj [("proof", .jobj [("proofValue", .jstr "!!not-base64!!")])])
      (.jobj [("proofValue", .jstr "!!not-base64!!")]) "!!not-base64!!" 0
      (by decide) (by decide) (by decide) (by decide)⟩

/-- C5 counterexample: the claim quantifies over every document carrying a
`proof` field, but `canonicalize` only strips the field when it is truthy
(`if (excludeProof && obj.proof)`), so a document with `proof: null` keeps
the field: `canonicalize({proof: null}, true)` is the string
`\x7b"proof":null\x7d`, while the same document without the field
canonicalizes to `\x7b\x7d`. -/
theorem canonicalize_exclude_proof_counterexample :
    JSONLDCanon.canonicalize (.jobj [("proof", .jnull)]) true
      ≠ JSONLDCanon.canonicalize (.jobj []) := by decide

/-- C5 amended: for every document whose `proof` field is present AND truthy
(in particular any proof object), canonicalizing with `excludeProof = true`
yields exactly the string obtained by canonicalizing the document with the
`proof` field removed. -/
theorem canonicalize_exclude_proof_equiv (d p : JsonVal)
    (hm : memberAccess d "proof" = some p) (ht : jsTruthy p = true) :
    JSONLDCanon.canonicalize d true
      = JSONLDCanon.canonicalize (deleteField d "proof") := by
  have hp : proofAbsentOrTruthy d := Or.inr (by rw [hm]; simpa [jsTruthyOpt] using ht)
  rw [canonicalize_true_eq d hp, canonicalize_false_eq]

theorem canonicalize_exclude_proof_equiv_witness :
    JSONLDCanon.canonicalize
        (.jobj [("a", .jstr "x"), ("proof", .jobj [("proofValue", .jstr "z")])]) true
      = JSONLDCanon.canonicalize
        (deleteField (.jobj [("a", .jstr "x"), ("proof", .jobj [("proofValue", .jstr "z")])])
          "proof") :=
  canonicalize_exclude_proof_equiv
    (.jobj [("a", .jstr "x"), ("proof", .jobj [("proofValue", .jstr "z")])])
    (.jobj [("proofValue", .jstr "z")]) (by decide) (by decide)

/-- C6 counterexample: the credential signing path never derives the
verification method from the signer's identifier: a credential issued by
`did:example:alice` receives the hard-coded placeholder
`did:example:123#key-1`, not `did:example:alice#key-1`. -/
theorem verification_method_counterexample :
    (Option.bind
        (memberAccess (VerifiableCredentialService.sign toyCryptoAccept
          (.jobj [("issuer", .jstr "did:example:alice")]) 1 2 "2024-01-01T00:00:00Z") "proof")
        (fun p => memberAccess p "verificationMethod"))
      = some (.jstr "did:example:123#key-1") ∧
    "did:example:123#key-1" ≠ "did:example:alice" ++ "#key-1" :=
  ⟨by decide, by decide⟩

/-- The proof record attached by `signPresentation`. -/
def signedPresentationProof (C : CryptoModel) (vp : JsonVal) (priv nonce : Nat)
    (created : String) : Proof :=
  { type := some "EcdsaSecp256r1Signature2019", created := some created,
    verificationMethod := some (if jsTruthyOpt (memberAccess vp "holder")
      then jsToString ((memberAccess vp "holder").getD .jnull) ++ "#key-1"
      else "did:example:holder#key-1"),
    proofPurpose := some "authentication",
    proofValue := some (C.sign priv nonce (JSONLDCanon.canonicalize vp true)) }

theorem signPresentation_proof_member (C : CryptoModel) (vp : JsonVal) (priv nonce : Nat)
    (created : String) (hobj : vp.isObj = true) :
    memberAccess (VerifiableCredentialService.signPresentation C vp priv nonce created) "proof"
      = some (signedPresentationProof C vp priv nonce created).toJSON := by
  cases vp with
  | jobj kvs =>
    simp only [VerifiableCredentialService.signPresentation,
      ProofGenerator.createProofWithMetadata, signedPresentationProof, setField,
      memberAccess, lookup_setKV_self]
  | jnull => simp [JsonVal.isObj] at hobj
  | jbool b => simp [JsonVal.isObj] at hobj
  | jnum n => simp [JsonVal.isObj] at hobj
  | jstr s2 => simp [JsonVal.isObj] at hobj
  | jarr xs => simp [JsonVal.isObj] at hobj

/-- C6 amended: the credential path attaches the constant placeholder
`did:example:123#key-1` as verification method, independent of the
document's issuer and of the signing key; the presentation path derives it
from the document's `holder` field (`${holder}#key-1`) when that field is
truthy, and uses the placeholder `did:example:holder#key-1` otherwise. -/
theorem verification_method_amended (C : CryptoModel) :
    (∀ (vc : JsonVal) (priv nonce : Nat) (created : String), vc.isObj = true →
      Option.bind
        (memberAccess (VerifiableCredentialService.sign C vc priv nonce created) "proof")
        (fun p => memberAccess p "verificationMethod")
        = some (.jstr "did:example:123#key-1")) ∧
    (∀ (vp : JsonVal) (priv nonce : Nat) (created h : String), vp.isObj = true →
      memberAccess vp "holder" = some (.jstr h) → h ≠ "" →
      Option.bind
        (memberAccess
          (VerifiableCredentialService.signPresentation C vp priv nonce created) "proof")
        (fun p => memberAccess p "verificationMethod")
        = some (.jstr (h ++ "#key-1"))) ∧
    (∀ (vp : JsonVal) (priv nonce : Nat) (created : String), vp.isObj = true →
      jsTruthyOpt (memberAccess vp "holder") = false →
      Option.bind
        (memberAccess
          (VerifiableCredentialService.signPresentation C vp priv nonce created) "proof")
        (fun p => memberAccess p "verificationMethod")
        = some (.jstr "did:example:holder#key-1")) := by
  refine ⟨?_, ?_, ?_⟩
  · intro vc priv nonce created hobj
    rw [sign_proof_member C vc priv nonce created hobj]
    exact memberAccess_toJSON_verificationMethod _ _ rfl (by decide)
  · intro vp priv nonce created h hobj hm hh
    rw [signPresentation_proof_member C vp priv nonce created hobj]
    have hvm : (signedPresentationProof C vp priv nonce created).verificationMethod
        = some (h ++ "#key-1") := by
      simp [signedPresentationProof, hm, jsTruthyOpt, jsTruthy, hh, jsToString]
    refine memberAccess_toJSON_verificationMethod _ _ hvm ?_
    intro he
    have hlen := congrArg String.length he
    simp [String.length_append] at hlen
    exact absurd hlen.2 (by decide)
  · intro vp priv nonce created hobj hfal
    rw [signPresentation_proof_member C vp priv nonce created hobj]
    have hvm : (signedPresentationProof C vp priv nonce created).verificationMethod
        = some "did:example:holder#key-1" := by
      simp [signedPresentationProof, hfal]
    exact memberAccess_toJSON_verificationMethod _ _ hvm (by decide)

theorem verification_method_amended_witness :
    (Option.bind
        (memberAccess (VerifiableCredentialService.sign toyCryptoAccept
          (.jobj []) 1 2 "t") "proof")
        (fun p => memberAccess p "verificationMethod")
        = some (.jstr "did:example:123#key-1")) ∧
    (Option.bind
        (memberAccess (VerifiableCredentialService.signPresentation toyCryptoAccept
          (.jobj [("holder", .jstr "did:example:bob")]) 1 2 "t") "proof")
        (fun p => memberAccess p "verificationMethod")
        = some (.jstr ("did:example:bob" ++ "#key-1"))) ∧
    (Option.bind
        (memberAccess (VerifiableCredentialService.signPresentation toyCryptoAccept
          (.jobj []) 1 2 "t") "proof")
        (fun p => memberAccess p "verificationMethod")
        = some (.jstr "did:example:holder#key-1")) :=
  ⟨(verification_method_amended toyCryptoAccept).1 (.jobj []) 1 2 "t" (by decide),
    (verification_method_amended toyCryptoAccept).2.1
      (.jobj [("holder", .jstr "did:example:bob")]) 1 2 "t" "did:example:bob"
      (by decide) (by decide) (by decide),
    (verification_method_amended toyCryptoAccept).2.2 (.jobj []) 1 2 "t"
      (by decide) (by decide)⟩

/-- C8: credential finalize fails with the ValidationError message naming
the first missing required field, in the deterministic source order
context, type, issuer, validFrom (checked through its legacy alias
issuanceDate), credentialSubject — `VCBuilder.build` coincides pointwise
with the spec-side first-missing-field checker; presentation finalize
fails with `Holder is required` when the holder is missing, then with
`At least one verifiable credential is required` on an empty credential
list, and succeeds otherwise. -/
theorem builder_validation_order :
    (∀ vc : VerifiableCredential,
      VCBuilder.build vc = (match specVCFirstMissing vc with
        | some f => Except.error (vcValidationMessage f)
        | none => Except.ok vc)) ∧
    (∀ vp : VerifiablePresentation,
      (match specVPError vp with
        | some e => VPBuilder.build vp = Except.error e
        | none => ∃ r, VPBuilder.build vp = Except.ok r)) := by
  constructor
  · intro vc
    unfold VCBuilder.build specVCFirstMissing
    split_ifs <;> rfl
  · intro vp
    unfold VPBuilder.build specVPError
    split_ifs <;> first | rfl | exact ⟨_, rfl⟩

/-- C9: a presentation builder state with a truthy holder and a nonempty
credential list builds successfully, and the built object's `type`
includes the `VerifiablePresentation` marker — appended to the builder
state when absent instead of failing. -/
theorem vp_build_adds_presentation_type (vp : VerifiablePresentation)
    (hh : jsTruthyStr vp.holder = true) (hc : vp.verifiableCredential ≠ []) :
    ∃ r, VPBuilder.build vp = .ok r ∧ "VerifiablePresentation" ∈ r.type := by
  have hemp : vp.verifiableCredential.isEmpty = false := by
    simpa [List.isEmpty_iff] using hc
  unfold VPBuilder.build
  by_cases hm : vp.type.contains "VerifiablePresentation"
  · exact ⟨vp,
      by rw [if_neg (by simp [hh]), if_neg (by simp [hemp]), if_pos hm],
      by simpa using hm⟩
  · refine ⟨{ vp with type := vp.type ++ ["VerifiablePresentation"] }, ?_, by simp⟩
    rw [if_neg (by simp [hh]), if_neg (by simp [hemp]), if_neg hm]

theorem vp_build_adds_presentation_type_witness :
    ∃ r, VPBuilder.build
        { context := ["https://www.w3.org/ns/credentials/v2"], type := [],
          holder := some "did:example:carol", verifiableCredential := [.jnull] }
      = .ok r ∧ "VerifiablePresentation" ∈ r.type :=
  vp_build_adds_presentation_type
    { context := ["https://www.w3.org/ns/credentials/v2"], type := [],
      holder := some "did:example:carol", verifiableCredential := [.jnull] }
    (by decide) (by simp)

/-- C10: `verify` inspects only `proofValue` inside the embedded proof:
attaching ANY proof object whose `proofValue` is a nonempty string that the
primitive accepts over the proof-stripped canonical bytes makes `verify`
return true — the proof's `type`, `created`, `verificationMethod` and
`proofPurpose` may be absent or arbitrary, since no proof-metadata
validation is performed. -/
theorem verify_only_checks_proof_value (C : CryptoModel) (doc : JsonVal)
    (kvs : List (String × JsonVal)) (s : String) (pub : Nat)
    (hobj : doc.isObj = true)
    (hpv : List.lookup "proofValue" kvs = some (.jstr s)) (hs : s ≠ "")
    (hv : C.verify pub (JSONLDCanon.canonicalize (deleteField doc "proof")) s = true) :
    VerifiableCredentialService.verify C (setField doc "proof" (.jobj kvs)) pub
      = .ok true := by
  cases doc with
  | jobj dkvs =>
    have h1 : memberAccess (setField (.jobj dkvs) "proof" (.jobj kvs)) "proof"
        = some (.jobj kvs) := by
      simp [setField, memberAccess, lookup_setKV_self]
    have h2 : deleteField (setField (.jobj dkvs) "proof" (.jobj kvs)) "proof"
        = deleteField (.jobj dkvs) "proof" := by
      simp [setField, deleteField, filter_setKV]
    unfold VerifiableCredentialService.verify
    rw [h1]
    simp only [jsTruthy, Bool.true_eq_false, if_false, memberAccess, hpv]
    have h3 : (jsTruthy (JsonVal.jstr s) = false) = False := by simp [jsTruthy, hs]
    simp only [h3, if_false, h2]
    rw [canonicalize_false_eq] at hv
    simp [JSONLDCanon.canonicalize, memberAccess, hs, hv]
  | jnull => simp [JsonVal.isObj] at hobj
  | jbool b => simp [JsonVal.isObj] at hobj
  | jnum n => simp [JsonVal.isObj] at hobj
  | jstr s2 => simp [JsonVal.isObj] at hobj
  | jarr xs => simp [JsonVal.isObj] at hobj

theorem verify_only_checks_proof_value_witness :
    VerifiableCredentialService.verify toyCryptoAccept
      (setField (.jobj [("a", .jstr "x")]) "proof"
        (.jobj [("proofValue", .jstr "SIG")])) 0 = .ok true :=
  verify_only_checks_proof_value toyCryptoAccept (.jobj [("a", .jstr "x")])
    [("proofValue", .jstr "SIG")] "SIG" 0 (by decide) (by decide) (by decide) rfl

mutual

/-- Two JSON values with identical key/value content, the property insertion
order of objects being irrelevant: scalars must be equal, arrays pointwise
related, and objects must have duplicate-free key sets with, for each key,
related values — a permutation of pointwise-related member lists. -/
inductive ContentEq : JsonVal → JsonVal → Prop where
  | jnull : ContentEq .jnull .jnull
  | jbool (b : Bool) : ContentEq (.jbool b) (.jbool b)
  | jnum (n : Int) : ContentEq (.jnum n) (.jnum n)
  | jstr (s : String) : ContentEq (.jstr s) (.jstr s)
  | jarr : ContentEqList xs ys → ContentEq (.jarr xs) (.jarr ys)
  | jobj : ContentEqKV l1 l2 → List.Perm l2 l3 → (l1.map Prod.fst).Nodup →
      ContentEq (.jobj l1) (.jobj l3)

/-- Pointwise `ContentEq` on array elements. -/
inductive ContentEqList : List JsonVal → List JsonVal → Prop where
  | nil : ContentEqList [] []
  | cons : ContentEq x y → ContentEqList xs ys → ContentEqList (x :: xs) (y :: ys)

/-- Pointwise `ContentEq` on members: equal keys in equal positions,
related values. -/
inductive ContentEqKV : List (String × JsonVal) → List (String × JsonVal) → Prop where
  | nil : ContentEqKV [] []
  | cons (k : String) : ContentEq v w → ContentEqKV l1 l2 →
      ContentEqKV ((k, v) :: l1) ((k, w) :: l2)

end

theorem contentEqKV_keys : ∀ {l1 l2 : List (String × JsonVal)}, ContentEqKV l1 l2 →
    l1.map Prod.fst = l2.map Prod.fst
  | _, _, .nil => rfl
  | _, _, .cons k _ hs => by
      simpa using contentEqKV_keys hs

theorem sortJsonKVs_eq_map (l : List (String × JsonVal)) :
    sortJsonKVs l = l.map (fun p => (p.1, sortJson p.2)) := by
  induction l with
  | nil => rfl
  | cons p l ih =>
    obtain ⟨k, v⟩ := p
    simp [sortJsonKVs, ih]

theorem sortJsonKVs_keys (l : List (String × JsonVal)) :
    (sortJsonKVs l).map Prod.fst = l.map Prod.fst := by
  rw [sortJsonKVs_eq_map, List.map_map]
  rfl

theorem sorted_kvLe_nodup_kvLt {l : List (String × JsonVal)}
    (hs : List.Sorted kvLe l) (hnd : (l.map Prod.fst).Nodup) :
    List.Sorted kvLt l := by
  have hne : List.Pairwise (fun p q : String × JsonVal => p.1 ≠ q.1) l := by
    rw [List.Nodup, List.pairwise_map] at hnd
    exact hnd
  exact (hs.and hne).imp (fun h => lt_of_le_of_ne h.1 h.2)

theorem insertionSort_eq_of_perm {l1 l2 : List (String × JsonVal)}
    (hp : List.Perm l1 l2) (hnd : (l1.map Prod.fst).Nodup) :
    List.insertionSort kvLe l1 = List.insertionSort kvLe l2 := by
  have hp1 := List.perm_insertionSort kvLe l1
  have hp2 := List.perm_insertionSort kvLe l2
  have hperm : List.Perm (List.insertionSort kvLe l1) (List.insertionSort kvLe l2) :=
    hp1.trans (hp.trans hp2.symm)
  have hnd1 : ((List.insertionSort kvLe l1).map Prod.fst).Nodup :=
    ((hp1.map Prod.fst).nodup_iff).mpr hnd
  have hnd2 : ((List.insertionSort kvLe l2).map Prod.fst).Nodup :=
    ((hperm.map Prod.fst).nodup_iff).mp hnd1
  exact List.eq_of_perm_of_sorted hperm
    (sorted_kvLe_nodup_kvLt (List.sorted_insertionSort kvLe l1) hnd1)
    (sorted_kvLe_nodup_kvLt (List.sorted_insertionSort kvLe l2) hnd2)

mutual

theorem contentEq_sortJson : ∀ {a b : JsonVal}, ContentEq a b → sortJson a = sortJson b
  | _, _, .jnull => rfl
  | _, _, .jbool b => rfl
  | _, _, .jnum n => rfl
  | _, _, .jstr s => rfl
  | _, _, .jarr h => by
      simp only [sortJson]
      exact congrArg _ (contentEqList_sortJson h)
  | _, _, .jobj h1 hperm hnd => by
      simp only [sortJson]
      refine congrArg JsonVal.jobj ?_
      rw [contentEqKV_sortJson h1]
      refine insertionSort_eq_of_perm ?_ ?_
      · rw [sortJsonKVs_eq_map, sortJsonKVs_eq_map]
        exact hperm.map _
      · rw [sortJsonKVs_keys, ← contentEqKV_keys h1]
        exact hnd

theorem contentEqList_sortJson : ∀ {xs ys : List JsonVal}, ContentEqList xs ys →
    sortJsonList xs = sortJsonList ys
  | _, _, .nil => rfl
  | _, _, .cons h hs => by
      simp only [sortJsonList]
      exact congrArg₂ _ (contentEq_sortJson h) (contentEqList_sortJson hs)

theorem contentEqKV_sortJson : ∀ {l1 l2 : List (String × JsonVal)}, ContentEqKV l1 l2 →
    sortJsonKVs l1 = sortJsonKVs l2
  | _, _, .nil => rfl
  | _, _, .cons k h hs => by
      simp only [sortJsonKVs]
      exact congrArg₂ _ (congrArg _ (contentEq_sortJson h)) (contentEqKV_sortJson hs)

end

theorem contentEq_truthy : ∀ {a b : JsonVal}, ContentEq a b → jsTruthy a = jsTruthy b
  | _, _, .jnull => rfl
  | _, _, .jbool _ => rfl
  | _, _, .jnum _ => rfl
  | _, _, .jstr _ => rfl
  | _, _, .jarr _ => rfl
  | _, _, .jobj _ _ _ => rfl

theorem contentEqKV_lookup (k : String) : ∀ {l1 l2 : List (String × JsonVal)},
    ContentEqKV l1 l2 →
    (List.lookup k l1 = none ∧ List.lookup k l2 = none) ∨
    (∃ v w, List.lookup k l1 = some v ∧ List.lookup k l2 = some w ∧ ContentEq v w)
  | _, _, .nil => Or.inl ⟨rfl, rfl⟩
  | _, _, .cons k0 h hs => by
      by_cases he : k = k0
      · subst he
        exact Or.inr ⟨_, _, by simp [List.lookup], by simp [List.lookup], h⟩
      · have h2 : (k == k0) = false := by simp [he]
        simpa [List.lookup, h2] using contentEqKV_lookup k hs

theorem lookup_eq_of_perm (k : String) {l1 l2 : List (String × JsonVal)}
    (hp : List.Perm l1 l2) :
    (l1.map Prod.fst).Nodup → List.lookup k l1 = List.lookup k l2 := by
  induction hp with
  | nil => intro _; rfl
  | cons x h ih =>
    intro hnd
    obtain ⟨a, b⟩ := x
    cases hka : (k == a) with
    | true => simp [List.lookup, hka]
    | false =>
      simp only [List.lookup, hka]
      exact ih (by simpa using hnd.of_cons)
  | swap x y l =>
    intro hnd
    obtain ⟨a, b⟩ := x
    obtain ⟨c, d⟩ := y
    have hca : c ≠ a := by
      simp only [List.map_cons, List.nodup_cons, List.mem_cons] at hnd
      exact fun he => hnd.1 (Or.inl he)
    cases hkc : (k == c) <;> cases hka : (k == a)
    · simp [List.lookup, hkc, hka]
    · simp [List.lookup, hkc, hka]
    · simp [List.lookup, hkc, hka]
    · exact absurd (((beq_iff_eq ..).mp hkc).symm.trans ((beq_iff_eq ..).mp hka)) hca
  | trans h1 h2 ih1 ih2 =>
    intro hnd
    exact (ih1 hnd).trans (ih2 ((h1.map Prod.fst).nodup_iff.mp hnd))

theorem contentEq_member_truthy (k : String) {a b : JsonVal} (h : ContentEq a b) :
    jsTruthyOpt (memberAccess a k) = jsTruthyOpt (memberAccess b k) := by
  cases h with
  | jnull => rfl
  | jbool b => rfl
  | jnum n => rfl
  | jstr s => rfl
  | jarr h => rfl
  | jobj h1 hperm hnd =>
    show jsTruthyOpt (List.lookup k _) = jsTruthyOpt (List.lookup k _)
    rw [← lookup_eq_of_perm k hperm (contentEqKV_keys h1 ▸ hnd)]
    rcases contentEqKV_lookup k h1 with ⟨hn1, hn2⟩ | ⟨v, w, hv, hw, hvw⟩
    · rw [hn1, hn2]
    · rw [hv, hw]
      simpa [jsTruthyOpt] using contentEq_truthy hvw

theorem contentEqKV_filter (k : String) : ∀ {l1 l2 : List (String × JsonVal)},
    ContentEqKV l1 l2 →
    ContentEqKV (l1.filter (fun p => p.1 != k)) (l2.filter (fun p => p.1 != k))
  | _, _, .nil => .nil
  | _, _, .cons k0 h hs => by
      cases hcond : (k0 != k) with
      | true =>
        simpa [List.filter_cons, hcond] using
          ContentEqKV.cons k0 h (contentEqKV_filter k hs)
      | false =>
        simpa [List.filter_cons, hcond] using contentEqKV_filter k hs

theorem contentEq_deleteField (k : String) : ∀ {a b : JsonVal}, ContentEq a b →
    ContentEq (deleteField a k) (deleteField b k)
  | _, _, .jnull => .jnull
  | _, _, .jbool b => .jbool b
  | _, _, .jnum n => .jnum n
  | _, _, .jstr s => .jstr s
  | _, _, .jarr h => .jarr h
  | _, _, .jobj h1 hperm hnd => by
      simp only [deleteField]
      refine ContentEq.jobj (contentEqKV_filter k h1) (hperm.filter _) ?_
      exact hnd.sublist ((List.filter_sublist _).map Prod.fst)

/-- C3: canonical output is a pure function of content — for any two
documents with identical key/value content but different property insertion
order (`ContentEq`, which requires duplicate-free keys as JavaScript
objects have), `canonicalize` produces identical output strings, for either
value of `excludeProof`; keys are sorted at every nesting level by
`sortJson`, and `renderJson` emits no insignificant whitespace. -/
theorem canonicalize_deterministic (a b : JsonVal) (h : ContentEq a b) (ex : Bool) :
    JSONLDCanon.canonicalize a ex = JSONLDCanon.canonicalize b ex := by
  have hjcs : ∀ {u v : JsonVal}, ContentEq u v → canonicalizeJson u = canonicalizeJson v :=
    fun huv => congrArg renderJson (contentEq_sortJson huv)
  simp only [JSONLDCanon.canonicalize]
  rw [contentEq_member_truthy "proof" h]
  by_cases hc : (ex && jsTruthyOpt (memberAccess b "proof")) = true
  · simp only [hc, if_true]
    exact hjcs (contentEq_deleteField "proof" h)
  · simp only [Bool.not_eq_true] at hc
    simp only [hc, Bool.false_eq_true, if_false]
    exact hjcs h

theorem canonicalize_deterministic_witness :
    JSONLDCanon.canonicalize (.jobj [("b", .jnum 1), ("a", .jnum 2)]) false
      = JSONLDCanon.canonicalize (.jobj [("a", .jnum 2), ("b", .jnum 1)]) false :=
  canonicalize_deterministic _ _
    (ContentEq.jobj
      (ContentEqKV.cons "b" (ContentEq.jnum 1)
        (ContentEqKV.cons "a" (ContentEq.jnum 2) ContentEqKV.nil))
      (List.Perm.swap (("a", JsonVal.jnum 2) : String × JsonVal) ("b", JsonVal.jnum 1) [])
      (by decide)) false

/-- Heap-level JavaScript values, for the frame/aliasing analysis of
`sign`: primitives are stored inline, arrays and objects live behind a
reference into the heap. -/
inductive HVal where
  | hnull
  | hbool (b : Bool)
  | hnum (n : Int)
  | hstr (s : String)
  | href (a : Nat)
  deriving DecidableEq

/-- A heap cell: one JavaScript array or object. -/
inductive Cell where
  | arrCell (elems : List HVal)
  | objCell (fields : List (String × HVal))
  deriving DecidableEq

/-- The values stored directly in a cell. -/
def Cell.vals : Cell → List HVal
  | .arrCell vs => vs
  | .objCell fs => fs.map Prod.snd

mutual

/-- `JSON.stringify` on the heap: read a value back into a `JsonVal`,
with fuel bounding the traversal depth (`none` models the exception a
cyclic structure raises, or fuel exhaustion). -/
def stringifyH : Nat → List Cell → HVal → Option JsonVal
  | 0, _, _ => none
  | _ + 1, _, .hnull => some .jnull
  | _ + 1, _, .hbool b => some (.jbool b)
  | _ + 1, _, .hnum n => some (.jnum n)
  | _ + 1, _, .hstr s => some (.jstr s)
  | fuel + 1, h, .href a =>
    match h[a]? with
    | some (.arrCell vs) => (stringifyHList fuel h vs).map .jarr
    | some (.objCell fs) => (stringifyHKVs fuel h fs).map .jobj
    | none => none
  termination_by structural fuel => fuel

/-- Read back a list of array elements. -/
def stringifyHList : Nat → List Cell → List HVal → Option (List JsonVal)
  | 0, _, _ => none
  | _ + 1, _, [] => some []
  | fuel + 1, h, v :: vs =>
    match stringifyH fuel h v, stringifyHList fuel h vs with
    | some j, some js => some (j :: js)
    | _, _ => none
  termination_by structural fuel => fuel

/-- Read back a list of object members. -/
def stringifyHKVs : Nat → List Cell → List (String × HVal) → Option (List (String × JsonVal))
  | 0, _, _ => none
  | _ + 1, _, [] => some []
  | fuel + 1, h, (k, v) :: fs =>
    match stringifyH fuel h v, stringifyHKVs fuel h fs with
    | some j, some js => some ((k, j) :: js)
    | _, _ => none
  termination_by structural fuel => fuel

end

mutual

/-- `JSON.parse` on the heap: materialize a `JsonVal`, allocating a fresh
cell (appended at the end of the heap) for every array and object. -/
def parseAlloc : List Cell → JsonVal → List Cell × HVal
  | h, .jnull => (h, .hnull)
  | h, .jbool b => (h, .hbool b)
  | h, .jnum n => (h, .hnum n)
  | h, .jstr s => (h, .hstr s)
  | h, .jarr xs =>
    match parseAllocList h xs with
    | (h1, vs) => (h1 ++ [Cell.arrCell vs], .href h1.length)
  | h, .jobj kvs =>
    match parseAllocKVs h kvs with
    | (h1, fs) => (h1 ++ [Cell.objCell fs], .href h1.length)
  termination_by structural _h j => j

/-- Materialize array elements left to right. -/
def parseAllocList : List Cell → List JsonVal → List Cell × List HVal
  | h, [] => (h, [])
  | h, x :: xs =>
    match parseAlloc h x with
    | (h1, v) =>
      match parseAllocList h1 xs with
      | (h2, vs) => (h2, v :: vs)
  termination_by structural _h xs => xs

/-- Materialize object members left to right. -/
def parseAllocKVs : List Cell → List (String × JsonVal) → List Cell × List (String × HVal)
  | h, [] => (h, [])
  | h, (k, x) :: kvs =>
    match parseAlloc h x with
    | (h1, v) =>
      match parseAllocKVs h1 kvs with
      | (h2, fs) => (h2, (k, v) :: fs)
  termination_by structural _h kvs => kvs

end

/-- Heap-level property update on an object's member list. -/
def setKVH (k : String) (v : HVal) : List (String × HVal) → List (String × HVal)
  | [] => [(k, v)]
  | (k2, v2) :: fs => if k2 == k then (k, v) :: fs else (k2, v2) :: setKVH k v fs

/-- Heap-level JavaScript property assignment `r.k = v`: mutates the object
cell `r` points to, in place; a no-op on non-objects. -/
def heapSetField (h : List Cell) (r : HVal) (k : String) (v : HVal) : List Cell :=
  match r with
  | .href a =>
    match h[a]? with
    | some (.objCell fs) => h.set a (.objCell (setKVH k v fs))
    | _ => h
  | _ => h

/-- Heap-level `VerifiableCredentialService.sign`: `JSON.stringify` the
input document, `JSON.parse` the string into a fresh deep copy, build the
proof object (a fresh allocation, `proof.toJSON()`), sign the canonical
bytes of the original, and assign the proof object onto the copy.  Returns
`none` when stringification fails (cyclic input). -/
def VerifiableCredentialService.signH (C : CryptoModel) (fuel : Nat) (heap : List Cell)
    (vc : HVal) (priv nonce : Nat) (created : String) : Option (List Cell × HVal) :=
  match stringifyH fuel heap vc with
  | none => none
  | some j =>
    let copy := parseAlloc heap j
    let canonicalVc := JSONLDCanon.canonicalize j true
    let signature := C.sign priv nonce canonicalVc
    let proof := { ProofGenerator.createProofWithMetadata "EcdsaSecp256r1Signature2019"
      "assertionMethod" "did:example:123#key-1" created with proofValue := some signature }
    let alloc2 := parseAlloc copy.1 proof.toJSON
    some (heapSetField alloc2.1 copy.2 "proof" alloc2.2, copy.2)

/-- Reachability of a heap address from a value. -/
inductive ReachH (h : List Cell) : HVal → Nat → Prop where
  | here (a : Nat) : ReachH h (.href a) a
  | step {r : HVal} {a b : Nat} {c : Cell} : ReachH h r a → h[a]? = some c →
      (.href b) ∈ c.vals → ReachH h r b

/-- `h2` extends `h1`: only appends, every pre-existing cell unchanged. -/
def heapExtends (h1 h2 : List Cell) : Prop :=
  h1.length ≤ h2.length ∧ ∀ a, a < h1.length → h2[a]? = h1[a]?

/-- Every reference held by the value points at address `lo` or above. -/
def refsGE (lo : Nat) (v : HVal) : Prop := ∀ b, v = .href b → lo ≤ b

/-- Every cell stored at address `lo` or above only holds references to
addresses `lo` or above: the fresh region is closed, it never points back
into the pre-existing heap. -/
def regionGE (h : List Cell) (lo : Nat) : Prop :=
  ∀ i c, lo ≤ i → h[i]? = some c → ∀ w ∈ c.vals, refsGE lo w

theorem heapExtends_refl (h : List Cell) : heapExtends h h :=
  ⟨le_refl _, fun _ _ => rfl⟩

theorem heapExtends_trans {h1 h2 h3 : List Cell} (e1 : heapExtends h1 h2)
    (e2 : heapExtends h2 h3) : heapExtends h1 h3 :=
  ⟨le_trans e1.1 e2.1, fun a ha => (e2.2 a (lt_of_lt_of_le ha e1.1)).trans (e1.2 a ha)⟩

theorem refsGE_mono {lo lo2 : Nat} {v : HVal} (hle : lo2 ≤ lo) (h : refsGE lo v) :
    refsGE lo2 v := fun b hb => le_trans hle (h b hb)

theorem regionGE_self (h : List Cell) : regionGE h h.length := by
  intro i c hi hc
  rw [List.getElem?_eq_none hi] at hc
  exact absurd hc (by simp)

theorem regionGE_compose {hA hB : List Cell} {lo : Nat} (hlo : lo ≤ hA.length)
    (hext : heapExtends hA hB) (r1 : regionGE hA lo) (r2 : regionGE hB hA.length) :
    regionGE hB lo := by
  intro i c hi hc w hw
  by_cases hlt : i < hA.length
  · exact r1 i c hi ((hext.2 i hlt) ▸ hc) w hw
  · exact refsGE_mono hlo (r2 i c (le_of_not_lt hlt) hc w hw)

theorem heapExtends_concat {h1 : List Cell} (h : List Cell) (c : Cell)
    (hext : heapExtends h h1) : heapExtends h (h1 ++ [c]) := by
  refine ⟨le_trans hext.1 (by simp), fun a ha => ?_⟩
  rw [List.getElem?_append, if_pos (lt_of_lt_of_le ha hext.1), hext.2 a ha]

theorem regionGE_concat {h1 : List Cell} {lo : Nat} (c : Cell)
    (_hlen : lo ≤ h1.length) (r1 : regionGE h1 lo)
    (hc : ∀ w ∈ c.vals, refsGE lo w) : regionGE (h1 ++ [c]) lo := by
  intro i c0 hi hc0
  rcases Nat.lt_trichotomy i h1.length with hlt | heq | hgt
  · rw [List.getElem?_append, if_pos hlt] at hc0
    exact r1 i c0 hi hc0
  · subst heq
    rw [List.getElem?_concat_length] at hc0
    cases hc0
    exact hc
  · rw [List.getElem?_eq_none (by simp; omega)] at hc0
    exact absurd hc0 (by simp)

mutual

theorem parseAlloc_inv : ∀ (h : List Cell) (j : JsonVal),
    heapExtends h (parseAlloc h j).1 ∧ refsGE h.length (parseAlloc h j).2 ∧
    regionGE (parseAlloc h j).1 h.length
  | h, .jnull => by
    refine ⟨heapExtends_refl h, ?_, regionGE_self h⟩
    intro b hb
    simp [parseAlloc] at hb
  | h, .jbool b0 => by
    refine ⟨heapExtends_refl h, ?_, regionGE_self h⟩
    intro b hb
    simp [parseAlloc] at hb
  | h, .jnum n => by
    refine ⟨heapExtends_refl h, ?_, regionGE_self h⟩
    intro b hb
    simp [parseAlloc] at hb
  | h, .jstr s => by
    refine ⟨heapExtends_refl h, ?_, regionGE_self h⟩
    intro b hb
    simp [parseAlloc] at hb
  | h, .jarr xs => by
    have hl := parseAllocList_inv h xs
    obtain ⟨⟨h1, vs⟩, hp⟩ : ∃ p, parseAllocList h xs = p := ⟨_, rfl⟩
    rw [hp] at hl
    simp only [parseAlloc, hp]
    refine ⟨heapExtends_concat h _ hl.1, ?_, ?_⟩
    · intro b hb
      cases hb
      exact hl.1.1
    · exact regionGE_concat _ hl.1.1 hl.2.2 hl.2.1
  | h, .jobj kvs => by
    have hl := parseAllocKVs_inv h kvs
    obtain ⟨⟨h1, fs⟩, hp⟩ : ∃ p, parseAllocKVs h kvs = p := ⟨_, rfl⟩
    rw [hp] at hl
    simp only [parseAlloc, hp]
    refine ⟨heapExtends_concat h _ hl.1, ?_, ?_⟩
    · intro b hb
      cases hb
      exact hl.1.1
    · exact regionGE_concat _ hl.1.1 hl.2.2 hl.2.1

theorem parseAllocList_inv : ∀ (h : List Cell) (xs : List JsonVal),
    heapExtends h (parseAllocList h xs).1 ∧
    (∀ w ∈ (parseAllocList h xs).2, refsGE h.length w) ∧
    regionGE (parseAllocList h xs).1 h.length
  | h, [] => ⟨heapExtends_refl h, by simp [parseAllocList], regionGE_self h⟩
  | h, x :: xs => by
    have hx := parseAlloc_inv h x
    obtain ⟨⟨hA, v⟩, hpA⟩ : ∃ p, parseAlloc h x = p := ⟨_, rfl⟩
    rw [hpA] at hx
    have hxs := parseAllocList_inv hA xs
    obtain ⟨⟨hB, vs⟩, hpB⟩ : ∃ p, parseAllocList hA xs = p := ⟨_, rfl⟩
    rw [hpB] at hxs
    simp only [parseAllocList, hpA, hpB]
    refine ⟨heapExtends_trans hx.1 hxs.1, ?_, ?_⟩
    · intro w hw
      rcases List.mem_cons.mp hw with hw | hw
      · exact hw ▸ hx.2.1
      · exact refsGE_mono hx.1.1 (hxs.2.1 w hw)
    · exact regionGE_compose hx.1.1 hxs.1 hx.2.2 hxs.2.2

theorem parseAllocKVs_inv : ∀ (h : List Cell) (kvs : List (String × JsonVal)),
    heapExtends h (parseAllocKVs h kvs).1 ∧
    (∀ w ∈ (parseAllocKVs h kvs).2.map Prod.snd, refsGE h.length w) ∧
    regionGE (parseAllocKVs h kvs).1 h.length
  | h, [] => ⟨heapExtends_refl h, by simp [parseAllocKVs], regionGE_self h⟩
  | h, (k, x) :: kvs => by
    have hx := parseAlloc_inv h x
    obtain ⟨⟨hA, v⟩, hpA⟩ : ∃ p, parseAlloc h x = p := ⟨_, rfl⟩
    rw [hpA] at hx
    have hxs := parseAllocKVs_inv hA kvs
    obtain ⟨⟨hB, fs⟩, hpB⟩ : ∃ p, parseAllocKVs hA kvs = p := ⟨_, rfl⟩
    rw [hpB] at hxs
    simp only [parseAllocKVs, hpA, hpB]
    refine ⟨heapExtends_trans hx.1 hxs.1, ?_, ?_⟩
    · intro w hw
      simp only [List.map_cons, List.mem_cons] at hw
      rcases hw with hw | hw
      · exact hw ▸ hx.2.1
      · exact refsGE_mono hx.1.1 (hxs.2.1 w (by simpa using hw))
    · exact regionGE_compose hx.1.1 hxs.1 hx.2.2 hxs.2.2

end

theorem mem_map_snd_cons {w : HVal} (p : String × HVal) (fs : List (String × HVal))
    (h : w ∈ fs.map Prod.snd) : w ∈ (p :: fs).map Prod.snd := by
  rcases List.mem_map.mp h with ⟨q, hq, hqe⟩
  exact List.mem_map.mpr ⟨q, List.mem_cons_of_mem p hq, hqe⟩

theorem setKVH_vals (k : String) (v : HVal) : ∀ {fs : List (String × HVal)} {w : HVal},
    w ∈ (setKVH k v fs).map Prod.snd → w = v ∨ w ∈ fs.map Prod.snd
  | [], w, hw => by
      have hrw : (setKVH k v ([] : List (String × HVal))).map Prod.snd = [v] := rfl
      rw [hrw] at hw
      exact Or.inl (by simpa using hw)
  | (k2, v2) :: fs, w, hw => by
      by_cases he : (k2 == k) = true
      · have hrw : (setKVH k v ((k2, v2) :: fs)).map Prod.snd
            = v :: fs.map Prod.snd := by
          simp [setKVH, he]
        rw [hrw] at hw
        rcases List.mem_cons.mp hw with hw | hw
        · exact Or.inl hw
        · exact Or.inr (mem_map_snd_cons _ _ hw)
      · have hrw : (setKVH k v ((k2, v2) :: fs)).map Prod.snd
            = v2 :: (setKVH k v fs).map Prod.snd := by
          simp [setKVH, he]
        rw [hrw] at hw
        rcases List.mem_cons.mp hw with hw | hw
        · subst hw
          exact Or.inr (List.mem_map.mpr ⟨(k2, w), List.mem_cons_self _ _, rfl⟩)
        · rcases setKVH_vals k v hw with hw2 | hw2
          · exact Or.inl hw2
          · exact Or.inr (mem_map_snd_cons _ _ hw2)

theorem heapSetField_href (h : List Cell) (t : Nat) (k : String) (v : HVal) :
    heapSetField h (.href t) k v
      = match h[t]? with
        | some (.objCell fs) => h.set t (.objCell (setKVH k v fs))
        | _ => h := rfl

theorem heapSetField_not_href (h : List Cell) (r : HVal) (k : String) (v : HVal)
    (hr : ∀ t, r ≠ .href t) : heapSetField h r k v = h := by
  cases r with
  | href t => exact absurd rfl (hr t)
  | hnull => rfl
  | hbool b => rfl
  | hnum n => rfl
  | hstr s => rfl

theorem signH_alloc_frame (heap heap1 heapB : List Cell) (copyRef proofRef : HVal)
    (e1 : heapExtends heap heap1) (rc : refsGE heap.length copyRef)
    (g1 : regionGE heap1 heap.length)
    (e2 : heapExtends heap1 heapB) (rp : refsGE heap1.length proofRef)
    (g2 : regionGE heapB heap1.length) :
    (∀ a, a < heap.length →
      (heapSetField heapB copyRef "proof" proofRef)[a]? = heap[a]?) ∧
    (∀ a, ReachH (heapSetField heapB copyRef "proof" proofRef) copyRef a →
      heap.length ≤ a) := by
  have eB : heapExtends heap heapB := heapExtends_trans e1 e2
  have gB : regionGE heapB heap.length := regionGE_compose e1.1 e2 g1 g2
  have rpB : refsGE heap.length proofRef := refsGE_mono e1.1 rp
  have hframe : ∀ a, a < heap.length →
      (heapSetField heapB copyRef "proof" proofRef)[a]? = heapB[a]? := by
    intro a ha
    cases hcr : copyRef with
    | href t =>
      rw [heapSetField_href]
      cases hB : heapB[t]? with
      | some c =>
        cases c with
        | objCell fs =>
          have ht : heap.length ≤ t := rc t hcr
          exact List.getElem?_set_ne (by omega)
        | arrCell vs => rfl
      | none => rfl
    | hnull => rw [heapSetField_not_href _ _ _ _ (by intro t ht; cases ht)]
    | hbool b => rw [heapSetField_not_href _ _ _ _ (by intro t ht; cases ht)]
    | hnum n => rw [heapSetField_not_href _ _ _ _ (by intro t ht; cases ht)]
    | hstr s => rw [heapSetField_not_href _ _ _ _ (by intro t ht; cases ht)]
  have gFin : regionGE (heapSetField heapB copyRef "proof" proofRef) heap.length := by
    intro i c hi hc w hw
    cases hcr : copyRef with
    | href t =>
      rw [hcr, heapSetField_href] at hc
      cases hB : heapB[t]? with
      | some c0 =>
        rw [hB] at hc
        cases c0 with
        | objCell fs =>
          by_cases hit : i = t
          · subst hit
            have hlt : i < heapB.length := by
              by_contra hh
              rw [List.getElem?_eq_none (le_of_not_lt hh)] at hB
              exact absurd hB (by simp)
            rw [List.getElem?_set_eq_of_lt _ hlt] at hc
            injection hc with hceq
            subst hceq
            intro b hb
            rcases setKVH_vals "proof" proofRef hw with hwv | hwv
            · exact rpB b (hwv ▸ hb)
            · exact gB i (.objCell fs) hi hB w (by simpa [Cell.vals] using hwv) b hb
          · rw [List.getElem?_set_ne (Ne.symm hit)] at hc
            exact gB i c hi hc w hw
        | arrCell vs => exact gB i c hi hc w hw
      | none =>
        rw [hB] at hc
        exact gB i c hi hc w hw
    | hnull =>
      rw [hcr, heapSetField_not_href _ _ _ _ (by intro t ht; cases ht)] at hc
      exact gB i c hi hc w hw
    | hbool b0 =>
      rw [hcr, heapSetField_not_href _ _ _ _ (by intro t ht; cases ht)] at hc
      exact gB i c hi hc w hw
    | hnum n =>
      rw [hcr, heapSetField_not_href _ _ _ _ (by intro t ht; cases ht)] at hc
      exact gB i c hi hc w hw
    | hstr s0 =>
      rw [hcr, heapSetField_not_href _ _ _ _ (by intro t ht; cases ht)] at hc
      exact gB i c hi hc w hw
  constructor
  · intro a ha
    rw [hframe a ha, eB.2 a ha]
  · set hFin := heapSetField heapB copyRef "proof" proofRef with hFinDef
    intro a hr
    induction hr with
    | here a0 => exact rc a0 rfl
    | step hra hc hw ih => exact gFin _ _ (ih rc hFinDef) hc _ hw _ rfl

/-- C7: `sign` never mutates the caller's input document and the returned
signed document shares no mutable structure with it.  On the heap model:
every cell that existed before the call is unchanged afterwards — so the
caller's document, wherever it lives in the pre-existing heap, is exactly
as before, in particular it still has no `proof` member if it had none —
and every address reachable from the returned document is a fresh
allocation (`JSON.parse(JSON.stringify(vc))` plus the fresh proof object),
disjoint from the entire pre-existing heap and hence from the input.  The
copy's content is pinned at the value level by
`VerifiableCredentialService.sign`, which returns `setField vc "proof" …`
of the document's JSON value. -/
theorem sign_does_not_mutate_input (C : CryptoModel) (fuel : Nat)
    (heap heap2 : List Cell) (vc r : HVal) (priv nonce : Nat) (created : String)
    (h : VerifiableCredentialService.signH C fuel heap vc priv nonce created
      = some (heap2, r)) :
    (∀ a, a < heap.length → heap2[a]? = heap[a]?) ∧
    (∀ a, ReachH heap2 r a → heap.length ≤ a) := by
  cases hj : stringifyH fuel heap vc with
  | none =>
    simp only [VerifiableCredentialService.signH, hj] at h
    exact absurd h (by simp)
  | some j =>
    simp only [VerifiableCredentialService.signH, hj, Option.some.injEq,
      Prod.mk.injEq] at h
    obtain ⟨hh, hr⟩ := h
    subst hh
    subst hr
    have inv1 := parseAlloc_inv heap j
    exact signH_alloc_frame heap _ _ _ _ inv1.1 inv1.2.1 inv1.2.2
      (parseAlloc_inv _ _).1 (parseAlloc_inv _ _).2.1 (parseAlloc_inv _ _).2.2

/-- Pre-call heap of the concrete frame-property run: one document object. -/
def c7HeapBefore : List Cell := [Cell.objCell [("issuer", .hstr "x")]]

/-- Post-call heap of the concrete frame-property run: the original cell
untouched, the fresh deep copy (with the `proof` member assigned), and the
fresh proof object. -/
def c7HeapAfter : List Cell :=
  [Cell.objCell [("issuer", .hstr "x")],
    Cell.objCell [("issuer", .hstr "x"), ("proof", .href 2)],
    Cell.objCell [("type", .hstr "EcdsaSecp256r1Signature2019"),
      ("created", .hstr "t"),
      ("verificationMethod", .hstr "did:example:123#key-1"),
      ("proofPurpose", .hstr "assertionMethod"),
      ("proofValue", .hstr "SIG")]]

theorem sign_does_not_mutate_input_witness :
    (∀ a, a < c7HeapBefore.length → c7HeapAfter[a]? = c7HeapBefore[a]?) ∧
    (∀ a, ReachH c7HeapAfter (.href 1) a → c7HeapBefore.length ≤ a) :=
  sign_does_not_mutate_input toyCryptoAccept 9 c7HeapBefore c7HeapAfter
    (.href 0) (.href 1) 1 2 "t" (by decide)
